import Mathlib

/-!
# Verification of the BST visualizer engine

Shallow embedding of the instrumented binary-search-tree engine of
`src/bst.js` (identical to `src/react-bst/src/bst.js`) and of the layout
functions `computePositions` / `collectEdges` of
`src/react-bst/src/BSTVisualizer.jsx`, together with proofs of the
behavioural properties stated in the design document.

Node values are JavaScript numbers compared with `<` / `>` / `===`; all
observed values are integers, so they are modelled as `Int`.  The mutable
tree of the source is modelled by explicit state passing: an operation that
mutates the tree returns the new tree next to its recorded step list.
-/

set_option maxHeartbeats 1000000

namespace BSTViz

/-- The `Action` enumeration of `src/bst.js`: the seven step classifications
`VISITED`, `COMPARED`, `MOVED_LEFT`, `MOVED_RIGHT`, `INSERTED`, `FOUND`,
`NOT_FOUND`. -/
inductive Action where
  | visited
  | compared
  | movedLeft
  | movedRight
  | inserted
  | found
  | notFound
deriving DecidableEq, Repr

/-- One recorded animation step.  `node` is the value the step concerns;
`none` models the JavaScript `null` marker used for global outcomes such as
`NOT_FOUND`.  The `description` string of the source is display-only text
derived from the same data and carries no control information, so it is not
modelled. -/
structure Step where
  node : Option Int
  action : Action
deriving DecidableEq, Repr

/-- A possibly-absent `BSTNode`: `leaf` models the JavaScript `null`
reference, `node v l r` models a `BSTNode` with `value = v`, `left = l`,
`right = r`. -/
inductive Tree where
  | leaf
  | node (value : Int) (left : Tree) (right : Tree)
deriving DecidableEq, Repr

/-- `BinarySearchTree.insert(value)` of `src/bst.js`, which mutates the tree
and returns the step list; modelled as returning the updated tree together
with the steps.  The source's loop tests `current.left === null` before
either attaching the new node (emitting the `INSERTED` step) or descending;
rendering the loop recursively, descending into the absent child and letting
the `leaf` case emit the same single `INSERTED` step produces the identical
step list and the identical resulting tree, so the `leaf` equation below
covers both the empty-tree branch and the attachment points. -/
def Tree.insert : Tree → Int → Tree × List Step
  | .leaf, v => (.node v .leaf .leaf, [⟨some v, .inserted⟩])
  | .node cv l r, v =>
    let pre : List Step := [⟨some cv, .visited⟩, ⟨some cv, .compared⟩]
    if v < cv then
      let res := Tree.insert l v
      (.node cv res.1 r, pre ++ ⟨some cv, .movedLeft⟩ :: res.2)
    else if cv < v then
      let res := Tree.insert r v
      (.node cv l res.1, pre ++ ⟨some cv, .movedRight⟩ :: res.2)
    else
      (.node cv l r, pre ++ [⟨some cv, .found⟩])

/-- `BinarySearchTree.search(value)` of `src/bst.js`.  The method never
writes to the tree, so only the step list is returned.  The `leaf` equation
covers both the empty-tree branch (`Tree is empty, ... not found`) and
falling off the tree after a move, which emit the same `NOT_FOUND` step with
a `null` node marker. -/
def Tree.search : Tree → Int → List Step
  | .leaf, _ => [⟨none, .notFound⟩]
  | .node cv l r, v =>
    [⟨some cv, .visited⟩, ⟨some cv, .compared⟩] ++
    (if v = cv then [⟨some cv, .found⟩]
     else if v < cv then ⟨some cv, .movedLeft⟩ :: Tree.search l v
     else ⟨some cv, .movedRight⟩ :: Tree.search r v)

/-- Whether the reference is `null`. -/
def Tree.isLeaf : Tree → Bool
  | .leaf => true
  | .node _ _ _ => false

/-- `inorderTraversal` / `_inorderHelper` of `src/bst.js`: left subtree,
then the node's `VISITED` step, then right subtree, with a `MOVED_LEFT` /
`MOVED_RIGHT` step (tagged with the parent's value) emitted just before
descending into a present child. -/
def Tree.inorderTraversal : Tree → List Step
  | .leaf => []
  | .node v l r =>
    (if l.isLeaf then [] else ⟨some v, .movedLeft⟩ :: l.inorderTraversal) ++
    ⟨some v, .visited⟩ ::
    (if r.isLeaf then [] else ⟨some v, .movedRight⟩ :: r.inorderTraversal)

/-- `preorderTraversal` / `_preorderHelper` of `src/bst.js`: the node's
`VISITED` step first, then both subtrees. -/
def Tree.preorderTraversal : Tree → List Step
  | .leaf => []
  | .node v l r =>
    ⟨some v, .visited⟩ ::
    ((if l.isLeaf then [] else ⟨some v, .movedLeft⟩ :: l.preorderTraversal) ++
     (if r.isLeaf then [] else ⟨some v, .movedRight⟩ :: r.preorderTraversal))

/-- `postorderTraversal` / `_postorderHelper` of `src/bst.js`: both subtrees
first, then the node's `VISITED` step. -/
def Tree.postorderTraversal : Tree → List Step
  | .leaf => []
  | .node v l r =>
    (if l.isLeaf then [] else ⟨some v, .movedLeft⟩ :: l.postorderTraversal) ++
    (if r.isLeaf then [] else ⟨some v, .movedRight⟩ :: r.postorderTraversal) ++
    [⟨some v, .visited⟩]

/-- `BinarySearchTree.clear()` of `src/bst.js`: sets `this.root = null`.
The method returns `undefined`, i.e. no step list; modelled as the empty
step list next to the new (empty) tree state. -/
def Tree.clear (_t : Tree) : Tree × List Step := (.leaf, [])

/-- In-order list of the values stored in a tree (observation function used
to state properties). -/
def Tree.values : Tree → List Int
  | .leaf => []
  | .node v l r => l.values ++ v :: r.values

/-- Number of nodes in the tree. -/
def Tree.size : Tree → Nat
  | .leaf => 0
  | .node _ l r => l.size + 1 + r.size

/-- Builds a tree by a sequence of `insert` calls (dropping the step lists),
as the UI does starting from the empty tree. -/
def insertAll (t : Tree) (vs : List Int) : Tree :=
  vs.foldl (fun acc v => (acc.insert v).1) t

/-- The BST invariant, exactly as the design document states it: for every
node, all values in its left subtree are strictly less than the node's value
and all values in its right subtree are strictly greater. -/
def IsBST : Tree → Prop
  | .leaf => True
  | .node v l r =>
    (∀ x ∈ l.values, x < v) ∧ (∀ x ∈ r.values, v < x) ∧ IsBST l ∧ IsBST r

instance IsBST.instDecidable : (t : Tree) → Decidable (IsBST t)
  | .leaf => .isTrue trivial
  | .node v l r =>
    have _ := IsBST.instDecidable l
    have _ := IsBST.instDecidable r
    inferInstanceAs (Decidable ((∀ x ∈ l.values, x < v) ∧
      (∀ x ∈ r.values, v < x) ∧ IsBST l ∧ IsBST r))

/-! ## Layout engine (`src/react-bst/src/BSTVisualizer.jsx`) -/

/-- `CONFIG.PADDING` of `BSTVisualizer.jsx`. -/
def PADDING : Nat := 50

/-- `CONFIG.HORIZONTAL_SPACING` of `BSTVisualizer.jsx`. -/
def HORIZONTAL_SPACING : Nat := 60

/-- `CONFIG.VERTICAL_SPACING` of `BSTVisualizer.jsx`. -/
def VERTICAL_SPACING : Nat := 80

/-- `calculateWidths` of `computePositions`: the subtree width stored in the
`widths` map for each node, `width(node) = width(left) + 1 + width(right)`
with `width(null) = 0`.  The map is keyed by node identity, so it is simply
the recursive width of the subtree. -/
def Tree.width : Tree → Nat
  | .leaf => 0
  | .node _ l r => l.width + 1 + r.width

/-- One entry of the `positions` map: node value with its `x`, `y` pixel
coordinates.  All coordinates produced by the algorithm are non-negative
integers, so `Nat` is exact. -/
structure Pos where
  value : Int
  x : Nat
  y : Nat
deriving DecidableEq, Repr

/-- `assignPositions(node, depth, leftBound)` of `computePositions`:
`x = PADDING + (leftBound + width(left)) * HORIZONTAL_SPACING`,
`y = PADDING + depth * VERTICAL_SPACING`, recursing left with the same
`leftBound` and right with `leftBound + width(left) + 1`.  Entries are
listed in the source's `positions.set` order (pre-order). -/
def Tree.assignPositions : Tree → Nat → Nat → List Pos
  | .leaf, _, _ => []
  | .node v l r, depth, leftBound =>
    ⟨v, PADDING + (leftBound + l.width) * HORIZONTAL_SPACING,
        PADDING + depth * VERTICAL_SPACING⟩ ::
    (l.assignPositions (depth + 1) leftBound ++
     r.assignPositions (depth + 1) (leftBound + l.width + 1))

/-- `computePositions(root)` of `BSTVisualizer.jsx`: empty map for a `null`
root, otherwise both passes starting at depth 0, left bound 0. -/
def computePositions (root : Tree) : List Pos :=
  root.assignPositions 0 0

/-- Edge direction tag (`'left'` / `'right'`). -/
inductive Dir where
  | left
  | right
deriving DecidableEq, Repr

/-- `collectEdges(root, positions)` of `BSTVisualizer.jsx`: one entry per
present child, in traversal order.  The source stores the two positions
looked up by parent and child value; we record those lookup keys (the
values) together with the direction. -/
def collectEdges : Tree → List (Int × Int × Dir)
  | .leaf => []
  | .node v l r =>
    (match l with
     | .leaf => []
     | .node lv _ _ => (v, lv, Dir.left) :: collectEdges l) ++
    (match r with
     | .leaf => []
     | .node rv _ _ => (v, rv, Dir.right) :: collectEdges r)


/-- Method-call view of `search`: the tree state held by the object after
the call, next to the returned step list.  The body of `search` contains no
assignment to `this.root` nor to any node's `value` / `left` / `right`
field (`current = ...` only rebinds a local variable), so the tree state
after the call is the tree state before. -/
def Tree.searchOp (t : Tree) (v : Int) : Tree × List Step := (t, t.search v)

/-- Method-call view of `inorderTraversal` (no writes in the body). -/
def Tree.inorderOp (t : Tree) : Tree × List Step := (t, t.inorderTraversal)

/-- Method-call view of `preorderTraversal` (no writes in the body). -/
def Tree.preorderOp (t : Tree) : Tree × List Step := (t, t.preorderTraversal)

/-- Method-call view of `postorderTraversal` (no writes in the body). -/
def Tree.postorderOp (t : Tree) : Tree × List Step := (t, t.postorderTraversal)

/-- A terminal-outcome step of `insert`: `INSERTED` or `FOUND`. -/
def Step.isInsertTerminal (s : Step) : Bool :=
  s.action == .inserted || s.action == .found

/-- A terminal-outcome step of `search`: `FOUND` or `NOT_FOUND`. -/
def Step.isSearchTerminal (s : Step) : Bool :=
  s.action == .found || s.action == .notFound

/-- Depth reached by the comparison path of `insert`: the depth at which a
new node is attached, or the depth of the existing equal node on a
duplicate. -/
def Tree.insertDepth : Tree → Int → Nat
  | .leaf, _ => 0
  | .node cv l r, v =>
    if v < cv then l.insertDepth v + 1
    else if cv < v then r.insertDepth v + 1
    else 0

/-- Whether the comparison path of `insert` hits an equal value (the
duplicate case). -/
def Tree.insertHitsDup : Tree → Int → Bool
  | .leaf, _ => false
  | .node cv l r, v =>
    if v < cv then l.insertHitsDup v
    else if cv < v then r.insertHitsDup v
    else true

/-- Whether a step is a `VISITED` step. -/
def Step.isVisitedStep (s : Step) : Bool :=
  s.action == .visited

/-- Whether a step is a movement (`MOVED_LEFT` / `MOVED_RIGHT`) step. -/
def Step.isMove (s : Step) : Bool :=
  s.action == .movedLeft || s.action == .movedRight

/-- Number of `VISITED` steps in a step sequence. -/
def countVisited (steps : List Step) : Nat :=
  steps.countP Step.isVisitedStep

/-- Number of movement steps in a step sequence. -/
def countMoves (steps : List Step) : Nat :=
  steps.countP Step.isMove

/-- The node values carried by the `VISITED` steps of a step sequence, in
order of appearance. -/
def visitedValues (steps : List Step) : List Int :=
  steps.filterMap (fun s => if s.action = .visited then s.node else none)

/-- The value list visited by a pre-order walk (node before its subtrees). -/
def preorderValues : Tree → List Int
  | .leaf => []
  | .node v l r => v :: (preorderValues l ++ preorderValues r)

/-- The value list visited by a post-order walk (node after its subtrees). -/
def postorderValues : Tree → List Int
  | .leaf => []
  | .node v l r => postorderValues l ++ postorderValues r ++ [v]

/-- `Subtree s t`: the node `s` occurs in `t` (it is `t` itself or sits in
one of its subtrees). -/
inductive Subtree : Tree → Tree → Prop
  | refl (t : Tree) : Subtree t t
  | inLeft {s l : Tree} (v : Int) (r : Tree) :
      Subtree s l → Subtree s (.node v l r)
  | inRight {s r : Tree} (v : Int) (l : Tree) :
      Subtree s r → Subtree s (.node v l r)

/-- The entries of `assignPositions` rearranged into in-order: left subtree
entries, then the node, then right subtree entries (same multiset as the
source's pre-order `positions.set` order). -/
def inorderPosPairs : Tree → Nat → Nat → List Pos
  | .leaf, _, _ => []
  | .node v l r, depth, leftBound =>
    inorderPosPairs l (depth + 1) leftBound ++
    ⟨v, PADDING + (leftBound + l.width) * HORIZONTAL_SPACING,
        PADDING + depth * VERTICAL_SPACING⟩ ::
    inorderPosPairs r (depth + 1) (leftBound + l.width + 1)

/-- Values at a given depth of the tree. -/
def Tree.atDepth : Tree → Nat → List Int
  | .leaf, _ => []
  | .node v _ _, 0 => [v]
  | .node _ l r, d + 1 => l.atDepth d ++ r.atDepth d

end BSTViz

namespace BSTViz

example : (Tree.leaf.insert 50).2 = [⟨some 50, .inserted⟩] := by decide

example : ((Tree.leaf.insert 50).1.insert 30).2 =
    [⟨some 50, .visited⟩, ⟨some 50, .compared⟩, ⟨some 50, .movedLeft⟩,
     ⟨some 30, .inserted⟩] := by decide

example : (insertAll .leaf [50, 30, 70]).values = [30, 50, 70] := by decide

example : IsBST (insertAll .leaf [50, 30, 70, 20, 40, 60, 80]) := by decide

/-! ## Basic facts about `insert` -/

/-- The tree returned by `insert` holds the inserted value and the old
values, nothing else. -/
theorem mem_values_insert (t : Tree) (v x : Int) :
    x ∈ (t.insert v).1.values ↔ x = v ∨ x ∈ t.values := by
  induction t with
  | leaf => simp [Tree.insert, Tree.values]
  | node cv l r ihl ihr =>
    rcases lt_trichotomy v cv with h1 | h1 | h1
    · simp only [Tree.insert, if_pos h1, Tree.values, List.mem_append,
        List.mem_cons, ihl]
      tauto
    · subst h1
      simp only [Tree.insert, lt_irrefl, if_neg (lt_irrefl v), if_false,
        Tree.values, List.mem_append, List.mem_cons]
      tauto
    · have h2 : ¬ v < cv := not_lt.2 h1.le
      simp only [Tree.insert, if_neg h2, if_pos h1, Tree.values,
        List.mem_append, List.mem_cons, ihr]
      tauto

/-- `insert` preserves the BST invariant. -/
theorem isBST_insert (t : Tree) (v : Int) (h : IsBST t) :
    IsBST (t.insert v).1 := by
  induction t with
  | leaf => exact ⟨by simp [Tree.values], by simp [Tree.values], trivial, trivial⟩
  | node cv l r ihl ihr =>
    obtain ⟨hl, hr, bl, br⟩ := h
    rcases lt_trichotomy v cv with h1 | h1 | h1
    · simp only [Tree.insert, if_pos h1]
      refine ⟨fun x hx => ?_, hr, ihl bl, br⟩
      rcases (mem_values_insert l v x).1 hx with rfl | hx
      · exact h1
      · exact hl x hx
    · subst h1
      simp only [Tree.insert, if_neg (lt_irrefl v)]
      exact ⟨hl, hr, bl, br⟩
    · have h2 : ¬ v < cv := not_lt.2 h1.le
      simp only [Tree.insert, if_neg h2, if_pos h1]
      refine ⟨hl, fun x hx => ?_, bl, ihr br⟩
      rcases (mem_values_insert r v x).1 hx with rfl | hx
      · exact h1
      · exact hr x hx

@[simp] theorem insertAll_nil (t : Tree) : insertAll t [] = t := rfl

@[simp] theorem insertAll_cons (t : Tree) (v : Int) (vs : List Int) :
    insertAll t (v :: vs) = insertAll (t.insert v).1 vs := rfl

/-- A tree built by repeated insertion from a BST is a BST. -/
theorem isBST_insertAll (vs : List Int) (t : Tree) (h : IsBST t) :
    IsBST (insertAll t vs) := by
  induction vs generalizing t with
  | nil => exact h
  | cons v vs ih => exact ih _ (isBST_insert t v h)

/-- The values of a tree built by repeated insertion are the inserted values
plus those already present. -/
theorem mem_values_insertAll (vs : List Int) (t : Tree) (x : Int) :
    x ∈ (insertAll t vs).values ↔ x ∈ vs ∨ x ∈ t.values := by
  induction vs generalizing t with
  | nil => simp
  | cons v vs ih =>
    simp only [insertAll_cons, ih, mem_values_insert, List.mem_cons]
    tauto

/-- C1 — For every sequence of insert calls starting from an empty tree,
after each insert the BST property holds: for every node in the tree, every
value in its left subtree is strictly less than the node's value and every
value in its right subtree is strictly greater.  (Quantifying over all
insertion sequences covers the tree after each individual insertion.) -/
theorem claim_C1 (vs : List Int) : IsBST (insertAll Tree.leaf vs) :=
  isBST_insertAll vs Tree.leaf trivial

/-! ## Search -/

theorem getLast?_cons_of_ne_nil {α : Type} (a : α) {s : List α} (h : s ≠ []) :
    (a :: s).getLast? = s.getLast? := by
  cases s with
  | nil => exact absurd rfl h
  | cons b u => exact List.getLast?_cons_cons

theorem search_ne_nil (t : Tree) (v : Int) : t.search v ≠ [] := by
  cases t with
  | leaf => simp [Tree.search]
  | node cv l r =>
    simp [Tree.search]

/-- In a BST, a value present in the tree and smaller than the root value
lies in the left subtree. -/
theorem mem_left_of_lt {cv : Int} {l r : Tree} {v : Int}
    (h : IsBST (.node cv l r)) (hv : v ∈ (Tree.node cv l r).values)
    (hlt : v < cv) : v ∈ l.values := by
  obtain ⟨hl, hr, _, _⟩ := h
  simp only [Tree.values, List.mem_append, List.mem_cons] at hv
  rcases hv with hv | hv | hv
  · exact hv
  · exact absurd hv (ne_of_lt hlt)
  · exact absurd (hr v hv) (not_lt.2 hlt.le)

/-- In a BST, a value present in the tree and greater than the root value
lies in the right subtree. -/
theorem mem_right_of_gt {cv : Int} {l r : Tree} {v : Int}
    (h : IsBST (.node cv l r)) (hv : v ∈ (Tree.node cv l r).values)
    (hgt : cv < v) : v ∈ r.values := by
  obtain ⟨hl, hr, _, _⟩ := h
  simp only [Tree.values, List.mem_append, List.mem_cons] at hv
  rcases hv with hv | hv | hv
  · exact absurd (hl v hv) (not_lt.2 hgt.le)
  · exact absurd hv.symm (ne_of_lt hgt)
  · exact hv

/-- Searching for a present value in a BST ends in `FOUND` at that value. -/
theorem search_getLast_of_mem (t : Tree) (v : Int) (hb : IsBST t)
    (hv : v ∈ t.values) : (t.search v).getLast? = some ⟨some v, .found⟩ := by
  induction t with
  | leaf => simp [Tree.values] at hv
  | node cv l r ihl ihr =>
    rcases lt_trichotomy v cv with h1 | h1 | h1
    · have hne : v ≠ cv := ne_of_lt h1
      simp only [Tree.search, if_neg hne, if_pos h1, List.cons_append,
        List.nil_append]
      rw [getLast?_cons_of_ne_nil, getLast?_cons_of_ne_nil,
        getLast?_cons_of_ne_nil _ (search_ne_nil l v)]
      · exact ihl hb.2.2.1 (mem_left_of_lt hb hv h1)
      · exact List.cons_ne_nil _ _
      · exact List.cons_ne_nil _ _
    · subst h1
      simp [Tree.search]
    · have hne : v ≠ cv := (ne_of_lt h1).symm
      have h2 : ¬ v < cv := not_lt.2 h1.le
      simp only [Tree.search, if_neg hne, if_neg h2, List.cons_append,
        List.nil_append]
      rw [getLast?_cons_of_ne_nil, getLast?_cons_of_ne_nil,
        getLast?_cons_of_ne_nil _ (search_ne_nil r v)]
      · exact ihr hb.2.2.2 (mem_right_of_gt hb hv h1)
      · exact List.cons_ne_nil _ _
      · exact List.cons_ne_nil _ _

/-- Searching for an absent value ends in `NOT_FOUND` with the `null` node
marker (this needs no BST assumption). -/
theorem search_getLast_of_not_mem (t : Tree) (v : Int)
    (hv : v ∉ t.values) : (t.search v).getLast? = some ⟨none, .notFound⟩ := by
  induction t with
  | leaf => simp [Tree.search]
  | node cv l r ihl ihr =>
    have hvals : ¬ (v ∈ l.values ∨ v = cv ∨ v ∈ r.values) := by
      simpa [Tree.values, List.mem_append, List.mem_cons] using hv
    push_neg at hvals
    obtain ⟨hvl, hne, hvr⟩ := hvals
    rcases lt_trichotomy v cv with h1 | h1 | h1
    · simp only [Tree.search, if_neg hne, if_pos h1, List.cons_append,
        List.nil_append]
      rw [getLast?_cons_of_ne_nil, getLast?_cons_of_ne_nil,
        getLast?_cons_of_ne_nil _ (search_ne_nil l v)]
      · exact ihl hvl
      · exact List.cons_ne_nil _ _
      · exact List.cons_ne_nil _ _
    · exact absurd h1 hne
    · have h2 : ¬ v < cv := not_lt.2 h1.le
      simp only [Tree.search, if_neg hne, if_neg h2, List.cons_append,
        List.nil_append]
      rw [getLast?_cons_of_ne_nil, getLast?_cons_of_ne_nil,
        getLast?_cons_of_ne_nil _ (search_ne_nil r v)]
      · exact ihr hvr
      · exact List.cons_ne_nil _ _
      · exact List.cons_ne_nil _ _

/-- C2 — For every tree built by a sequence of inserts and every value `v`:
if `v` was inserted, `search v` returns a step sequence whose final step has
action `FOUND` and node `v`; if `v` was never inserted (including when the
tree is empty), the final step is `NOT_FOUND` with the absent (`null`) node
marker. -/
theorem claim_C2 (vs : List Int) (v : Int) :
    (v ∈ vs →
      ((insertAll Tree.leaf vs).search v).getLast? = some ⟨some v, .found⟩) ∧
    (v ∉ vs →
      ((insertAll Tree.leaf vs).search v).getLast? = some ⟨none, .notFound⟩) := by
  constructor
  · intro hv
    refine search_getLast_of_mem _ v (isBST_insertAll vs Tree.leaf trivial) ?_
    rw [mem_values_insertAll]
    exact Or.inl hv
  · intro hv
    refine search_getLast_of_not_mem _ v ?_
    rw [mem_values_insertAll]
    simp [Tree.values, hv]

theorem claim_C2_witness :
    ((insertAll Tree.leaf [50, 30, 70]).search 30).getLast? =
      some ⟨some 30, .found⟩ ∧
    ((insertAll Tree.leaf [50, 30, 70]).search 99).getLast? =
      some ⟨none, .notFound⟩ :=
  ⟨(claim_C2 [50, 30, 70] 30).1 (by decide),
   (claim_C2 [50, 30, 70] 99).2 (by decide)⟩

/-! ## Duplicate insertion -/

theorem insert_steps_ne_nil (t : Tree) (v : Int) : (t.insert v).2 ≠ [] := by
  cases t with
  | leaf => simp [Tree.insert]
  | node cv l r =>
    by_cases h1 : v < cv
    · simp [Tree.insert, h1]
    · by_cases h2 : cv < v <;> simp [Tree.insert, h1, h2]

/-- Inserting a value already present in a BST returns the tree unchanged. -/
theorem insert_eq_self_of_mem (t : Tree) (v : Int) (hb : IsBST t)
    (hv : v ∈ t.values) : (t.insert v).1 = t := by
  induction t with
  | leaf => simp [Tree.values] at hv
  | node cv l r ihl ihr =>
    rcases lt_trichotomy v cv with h1 | h1 | h1
    · simp only [Tree.insert, if_pos h1]
      rw [ihl hb.2.2.1 (mem_left_of_lt hb hv h1)]
    · subst h1
      simp [Tree.insert]
    · have h2 : ¬ v < cv := not_lt.2 h1.le
      simp only [Tree.insert, if_neg h2, if_pos h1]
      rw [ihr hb.2.2.2 (mem_right_of_gt hb hv h1)]

/-- Inserting a value already present in a BST ends in a `FOUND` step at that
value. -/
theorem insert_getLast_of_mem (t : Tree) (v : Int) (hb : IsBST t)
    (hv : v ∈ t.values) : (t.insert v).2.getLast? = some ⟨some v, .found⟩ := by
  induction t with
  | leaf => simp [Tree.values] at hv
  | node cv l r ihl ihr =>
    rcases lt_trichotomy v cv with h1 | h1 | h1
    · simp only [Tree.insert, if_pos h1, List.cons_append, List.nil_append]
      rw [getLast?_cons_of_ne_nil, getLast?_cons_of_ne_nil,
        getLast?_cons_of_ne_nil _ (insert_steps_ne_nil l v)]
      · exact ihl hb.2.2.1 (mem_left_of_lt hb hv h1)
      · exact List.cons_ne_nil _ _
      · exact List.cons_ne_nil _ _
    · subst h1
      simp [Tree.insert]
    · have h2 : ¬ v < cv := not_lt.2 h1.le
      simp only [Tree.insert, if_neg h2, if_pos h1, List.cons_append,
        List.nil_append]
      rw [getLast?_cons_of_ne_nil, getLast?_cons_of_ne_nil,
        getLast?_cons_of_ne_nil _ (insert_steps_ne_nil r v)]
      · exact ihr hb.2.2.2 (mem_right_of_gt hb hv h1)
      · exact List.cons_ne_nil _ _
      · exact List.cons_ne_nil _ _

/-- Inserting an absent value adds exactly one node (no BST assumption
needed: the insertion path is determined by comparisons alone). -/
theorem size_insert_of_not_mem (t : Tree) (v : Int)
    (hv : v ∉ t.values) : (t.insert v).1.size = t.size + 1 := by
  induction t with
  | leaf => rfl
  | node cv l r ihl ihr =>
    have hvals : ¬ (v ∈ l.values ∨ v = cv ∨ v ∈ r.values) := by
      simpa [Tree.values, List.mem_append, List.mem_cons] using hv
    push_neg at hvals
    obtain ⟨hvl, hne, hvr⟩ := hvals
    rcases lt_trichotomy v cv with h1 | h1 | h1
    · simp only [Tree.insert, if_pos h1, Tree.size, ihl hvl]
      omega
    · exact absurd h1 hne
    · have h2 : ¬ v < cv := not_lt.2 h1.le
      simp only [Tree.insert, if_neg h2, if_pos h1, Tree.size, ihr hvr]
      omega

/-- C3 — For every (reachable, i.e. BST) tree and every value `v` already
present in it, `insert v` leaves the tree completely unchanged and its step
sequence terminates in a `FOUND` step; for every `v` not present, the tree
gains exactly one new node. -/
theorem claim_C3 (t : Tree) (v : Int) (hb : IsBST t) :
    (v ∈ t.values →
      (t.insert v).1 = t ∧ (t.insert v).2.getLast? = some ⟨some v, .found⟩) ∧
    (v ∉ t.values → (t.insert v).1.size = t.size + 1) :=
  ⟨fun hv => ⟨insert_eq_self_of_mem t v hb hv, insert_getLast_of_mem t v hb hv⟩,
   fun hv => size_insert_of_not_mem t v hv⟩

theorem claim_C3_witness :
    ((Tree.node 30 .leaf .leaf).insert 30).1 = Tree.node 30 .leaf .leaf ∧
    ((Tree.node 30 .leaf .leaf).insert 30).2.getLast? = some ⟨some 30, .found⟩ ∧
    ((Tree.node 30 .leaf .leaf).insert 40).1.size =
      (Tree.node 30 .leaf .leaf).size + 1 :=
  ⟨((claim_C3 (Tree.node 30 .leaf .leaf) 30 (by decide)).1 (by decide)).1,
   ((claim_C3 (Tree.node 30 .leaf .leaf) 30 (by decide)).1 (by decide)).2,
   (claim_C3 (Tree.node 30 .leaf .leaf) 40 (by decide)).2 (by decide)⟩

/-! ## Frame conditions and clear -/

/-- C8 — `search` and the three traversals never mutate the tree: the root
and every node's value, left child and right child are identical before and
after the call (stated as equality of the whole tree state). -/
theorem claim_C8 (t : Tree) (v : Int) :
    (t.searchOp v).1 = t ∧ t.inorderOp.1 = t ∧ t.preorderOp.1 = t ∧
      t.postorderOp.1 = t :=
  ⟨rfl, rfl, rfl, rfl⟩

/-- C9 — `clear` sets the root to absent and returns no steps; it is
idempotent (clearing an empty tree is a no-op and clearing twice equals
clearing once); for every tree, `clear()` then `insert(99)` yields a tree
whose only node is the root 99; in particular this holds for the tree built
from `[50, 30, 70, 20, 40]`. -/
theorem claim_C9 (t : Tree) :
    t.clear = (Tree.leaf, []) ∧
    Tree.clear Tree.leaf = (Tree.leaf, []) ∧
    (t.clear.1).clear = t.clear ∧
    ((t.clear.1).insert 99).1 = Tree.node 99 .leaf .leaf ∧
    (((insertAll Tree.leaf [50, 30, 70, 20, 40]).clear.1).insert 99).1 =
      Tree.node 99 .leaf .leaf :=
  ⟨rfl, rfl, rfl, rfl, rfl⟩

/-! ## Terminal steps (C10) -/

theorem insert_countP_terminal (t : Tree) (v : Int) :
    (t.insert v).2.countP Step.isInsertTerminal = 1 := by
  induction t with
  | leaf => rfl
  | node cv l r ihl ihr =>
    rcases lt_trichotomy v cv with h1 | h1 | h1
    · simp [Tree.insert, h1, List.countP_cons, Step.isInsertTerminal, ihl]
    · subst h1
      simp [Tree.insert, List.countP_cons, Step.isInsertTerminal]
    · have h2 : ¬ v < cv := not_lt.2 h1.le
      simp [Tree.insert, h1, h2, List.countP_cons, Step.isInsertTerminal, ihr]

theorem insert_getLast_terminal (t : Tree) (v : Int) :
    ((t.insert v).2.getLast?.map Step.isInsertTerminal) = some true := by
  induction t with
  | leaf => rfl
  | node cv l r ihl ihr =>
    rcases lt_trichotomy v cv with h1 | h1 | h1
    · simp only [Tree.insert, if_pos h1, List.cons_append, List.nil_append]
      rw [getLast?_cons_of_ne_nil, getLast?_cons_of_ne_nil,
        getLast?_cons_of_ne_nil _ (insert_steps_ne_nil l v)]
      · exact ihl
      · exact List.cons_ne_nil _ _
      · exact List.cons_ne_nil _ _
    · subst h1
      simp [Tree.insert, Step.isInsertTerminal]
    · have h2 : ¬ v < cv := not_lt.2 h1.le
      simp only [Tree.insert, if_neg h2, if_pos h1, List.cons_append,
        List.nil_append]
      rw [getLast?_cons_of_ne_nil, getLast?_cons_of_ne_nil,
        getLast?_cons_of_ne_nil _ (insert_steps_ne_nil r v)]
      · exact ihr
      · exact List.cons_ne_nil _ _
      · exact List.cons_ne_nil _ _

theorem search_countP_terminal (t : Tree) (v : Int) :
    (t.search v).countP Step.isSearchTerminal = 1 := by
  induction t with
  | leaf => rfl
  | node cv l r ihl ihr =>
    rcases lt_trichotomy v cv with h1 | h1 | h1
    · have hne : v ≠ cv := ne_of_lt h1
      simp [Tree.search, hne, h1, List.countP_cons, Step.isSearchTerminal, ihl]
    · subst h1
      simp [Tree.search, List.countP_cons, Step.isSearchTerminal]
    · have hne : v ≠ cv := (ne_of_lt h1).symm
      have h2 : ¬ v < cv := not_lt.2 h1.le
      simp [Tree.search, hne, h2, List.countP_cons, Step.isSearchTerminal, ihr]

theorem search_getLast_terminal (t : Tree) (v : Int) :
    ((t.search v).getLast?.map Step.isSearchTerminal) = some true := by
  induction t with
  | leaf => rfl
  | node cv l r ihl ihr =>
    rcases lt_trichotomy v cv with h1 | h1 | h1
    · have hne : v ≠ cv := ne_of_lt h1
      simp only [Tree.search, if_neg hne, if_pos h1, List.cons_append,
        List.nil_append]
      rw [getLast?_cons_of_ne_nil, getLast?_cons_of_ne_nil,
        getLast?_cons_of_ne_nil _ (search_ne_nil l v)]
      · exact ihl
      · exact List.cons_ne_nil _ _
      · exact List.cons_ne_nil _ _
    · subst h1
      simp [Tree.search, Step.isSearchTerminal]
    · have hne : v ≠ cv := (ne_of_lt h1).symm
      have h2 : ¬ v < cv := not_lt.2 h1.le
      simp only [Tree.search, if_neg hne, if_neg h2, List.cons_append,
        List.nil_append]
      rw [getLast?_cons_of_ne_nil, getLast?_cons_of_ne_nil,
        getLast?_cons_of_ne_nil _ (search_ne_nil r v)]
      · exact ihr
      · exact List.cons_ne_nil _ _
      · exact List.cons_ne_nil _ _

/-! ## Insert step counts (C4) -/

/-- Exact step count of `insert`: each level of descent contributes the
three steps `VISITED`, `COMPARED`, `MOVED_*`; the path ends with one
`INSERTED` step, or with `VISITED`, `COMPARED`, `FOUND` on a duplicate. -/
theorem insert_steps_length (t : Tree) (v : Int) :
    (t.insert v).2.length =
      if t.insertHitsDup v then 3 * t.insertDepth v + 3
      else 3 * t.insertDepth v + 1 := by
  induction t with
  | leaf => rfl
  | node cv l r ihl ihr =>
    rcases lt_trichotomy v cv with h1 | h1 | h1
    · simp only [Tree.insert, if_pos h1, Tree.insertHitsDup,
        Tree.insertDepth, List.cons_append, List.nil_append, List.length_cons,
        ihl]
      by_cases hd : l.insertHitsDup v = true <;> simp [hd] <;> ring
    · subst h1
      simp [Tree.insert, Tree.insertHitsDup, Tree.insertDepth]
    · have h2 : ¬ v < cv := not_lt.2 h1.le
      simp only [Tree.insert, if_neg h2, if_pos h1, Tree.insertHitsDup,
        Tree.insertDepth, List.cons_append, List.nil_append, List.length_cons,
        ihr]
      by_cases hd : r.insertHitsDup v = true <;> simp [hd] <;> ring

/-- On the duplicate path, `insert`'s last step is `FOUND` at the value. -/
theorem insert_getLast_of_dupPath (t : Tree) (v : Int)
    (h : t.insertHitsDup v = true) :
    (t.insert v).2.getLast? = some ⟨some v, .found⟩ := by
  induction t with
  | leaf => simp [Tree.insertHitsDup] at h
  | node cv l r ihl ihr =>
    rcases lt_trichotomy v cv with h1 | h1 | h1
    · rw [Tree.insertHitsDup, if_pos h1] at h
      simp only [Tree.insert, if_pos h1, List.cons_append, List.nil_append]
      rw [getLast?_cons_of_ne_nil, getLast?_cons_of_ne_nil,
        getLast?_cons_of_ne_nil _ (insert_steps_ne_nil l v)]
      · exact ihl h
      · exact List.cons_ne_nil _ _
      · exact List.cons_ne_nil _ _
    · subst h1
      simp [Tree.insert]
    · have h2 : ¬ v < cv := not_lt.2 h1.le
      rw [Tree.insertHitsDup, if_neg h2, if_pos h1] at h
      simp only [Tree.insert, if_neg h2, if_pos h1, List.cons_append,
        List.nil_append]
      rw [getLast?_cons_of_ne_nil, getLast?_cons_of_ne_nil,
        getLast?_cons_of_ne_nil _ (insert_steps_ne_nil r v)]
      · exact ihr h
      · exact List.cons_ne_nil _ _
      · exact List.cons_ne_nil _ _

/-- C4 counterexample — inserting 30 into the tree holding only 50 attaches
the new node at depth 1 and records 4 steps (`VISITED`, `COMPARED`,
`MOVED_LEFT`, `INSERTED`), not 2 × 1 + 1 = 3 as the claim states. -/
theorem claim_C4_counterexample :
    ((Tree.node 50 .leaf .leaf).insert 30).2.length = 4 ∧
    (Tree.node 50 .leaf .leaf).insertDepth 30 = 1 ∧
    (Tree.node 50 .leaf .leaf).insertHitsDup 30 = false ∧
    ((Tree.node 50 .leaf .leaf).insert 30).2.length ≠ 2 * 1 + 1 := by
  decide

/-- C4 (amended) — On an empty tree, `insert` returns exactly one `INSERTED`
step tagged with the new value.  On any tree the step count is
`3 × depth + 1` when the value is attached at depth `depth` and
`3 × depth + 3` — ending in a `FOUND` step — when the value duplicates a
node at depth `depth` (the claim's `2 × depth + 1` undercounts: each level
of descent contributes three steps, not two). -/
theorem claim_C4 (t : Tree) (v : Int) :
    (Tree.leaf.insert v).2 = [⟨some v, .inserted⟩] ∧
    (t.insert v).2.length =
      (if t.insertHitsDup v then 3 * t.insertDepth v + 3
       else 3 * t.insertDepth v + 1) ∧
    (t.insertHitsDup v = true →
      (t.insert v).2.getLast? = some ⟨some v, .found⟩) :=
  ⟨rfl, insert_steps_length t v, insert_getLast_of_dupPath t v⟩

theorem claim_C4_witness :
    ((Tree.node 50 (.node 30 .leaf .leaf) .leaf).insert 30).2.getLast? =
      some ⟨some 30, .found⟩ :=
  (claim_C4 (Tree.node 50 (.node 30 .leaf .leaf) .leaf) 30).2.2 (by decide)

/-- On a non-duplicate path, `insert`'s last step is `INSERTED` tagged with
the new value. -/
theorem insert_getLast_of_newPath (t : Tree) (v : Int)
    (h : t.insertHitsDup v = false) :
    (t.insert v).2.getLast? = some ⟨some v, .inserted⟩ := by
  induction t with
  | leaf => rfl
  | node cv l r ihl ihr =>
    rcases lt_trichotomy v cv with h1 | h1 | h1
    · rw [Tree.insertHitsDup, if_pos h1] at h
      simp only [Tree.insert, if_pos h1, List.cons_append, List.nil_append]
      rw [getLast?_cons_of_ne_nil, getLast?_cons_of_ne_nil,
        getLast?_cons_of_ne_nil _ (insert_steps_ne_nil l v)]
      · exact ihl h
      · exact List.cons_ne_nil _ _
      · exact List.cons_ne_nil _ _
    · subst h1
      rw [Tree.insertHitsDup] at h
      simp [lt_irrefl] at h
    · have h2 : ¬ v < cv := not_lt.2 h1.le
      rw [Tree.insertHitsDup, if_neg h2, if_pos h1] at h
      simp only [Tree.insert, if_neg h2, if_pos h1, List.cons_append,
        List.nil_append]
      rw [getLast?_cons_of_ne_nil, getLast?_cons_of_ne_nil,
        getLast?_cons_of_ne_nil _ (insert_steps_ne_nil r v)]
      · exact ihr h
      · exact List.cons_ne_nil _ _
      · exact List.cons_ne_nil _ _

/-- The last step of `insert` resolved by case: `FOUND` at the value on a
duplicate path, `INSERTED` tagged with the new value otherwise. -/
theorem insert_getLast_cases (t : Tree) (v : Int) :
    (t.insert v).2.getLast? =
      some (if t.insertHitsDup v then ⟨some v, .found⟩
            else ⟨some v, .inserted⟩) := by
  by_cases h : t.insertHitsDup v = true
  · rw [if_pos h, insert_getLast_of_dupPath t v h]
  · have h0 : t.insertHitsDup v = false := by
      cases hd : t.insertHitsDup v
      · rfl
      · exact absurd hd h
    rw [if_neg h, insert_getLast_of_newPath t v h0]

/-- On a BST, the comparison path of `insert` hits a duplicate exactly when
the value is already stored in the tree. -/
theorem insertHitsDup_iff_mem (t : Tree) (v : Int) (hb : IsBST t) :
    t.insertHitsDup v = true ↔ v ∈ t.values := by
  induction t with
  | leaf => simp [Tree.insertHitsDup, Tree.values]
  | node cv l r ihl ihr =>
    rcases lt_trichotomy v cv with h1 | h1 | h1
    · rw [Tree.insertHitsDup, if_pos h1, ihl hb.2.2.1]
      constructor
      · intro hm
        simp only [Tree.values, List.mem_append]
        exact Or.inl hm
      · intro hm
        exact mem_left_of_lt hb hm h1
    · subst h1
      simp [Tree.insertHitsDup, lt_irrefl, Tree.values]
    · have h2 : ¬ v < cv := not_lt.2 h1.le
      rw [Tree.insertHitsDup, if_neg h2, if_pos h1, ihr hb.2.2.2]
      constructor
      · intro hm
        simp only [Tree.values, List.mem_append, List.mem_cons]
        exact Or.inr (Or.inr hm)
      · intro hm
        exact mem_right_of_gt hb hm h1

/-- C10 — Every `insert` step sequence contains exactly one terminal-outcome
step and it is the last step of the sequence: an `INSERTED` step tagged with
the new value when the comparison path never hits the value, a `FOUND` step
at the value when it does — and on a BST (the trees the program builds) the
path hits the value exactly when it was already inserted.  Likewise every
`search` step sequence contains exactly one `FOUND` / `NOT_FOUND` step and
it is the last step. -/
theorem claim_C10 (t : Tree) (v : Int) :
    ((t.insert v).2.countP Step.isInsertTerminal = 1 ∧
     (t.insert v).2.getLast? =
       some (if t.insertHitsDup v then ⟨some v, .found⟩
             else ⟨some v, .inserted⟩) ∧
     (IsBST t → (t.insertHitsDup v = true ↔ v ∈ t.values))) ∧
    ((t.search v).countP Step.isSearchTerminal = 1 ∧
     ((t.search v).getLast?.map Step.isSearchTerminal) = some true) :=
  ⟨⟨insert_countP_terminal t v, insert_getLast_cases t v,
    fun hb => insertHitsDup_iff_mem t v hb⟩,
   ⟨search_countP_terminal t v, search_getLast_terminal t v⟩⟩

theorem claim_C10_witness :
    (Tree.node 30 .leaf .leaf).insertHitsDup 40 = true ↔
      (40 : Int) ∈ (Tree.node 30 .leaf .leaf).values :=
  (claim_C10 (Tree.node 30 .leaf .leaf) 40).1.2.2 (by decide)

/-! ## Traversal step counts (C6) -/

theorem isLeaf_eq_true_iff (t : Tree) : t.isLeaf = true ↔ t = .leaf := by
  cases t <;> simp [Tree.isLeaf]

@[simp] theorem isLeaf_node (v : Int) (l r : Tree) :
    (Tree.node v l r).isLeaf = false := rfl

theorem countVisited_guard (u : Tree) (m : Step) (steps : List Step)
    (hm : m.isVisitedStep = false) (ih : countVisited steps = u.size) :
    countVisited (if u.isLeaf then [] else m :: steps) = u.size := by
  by_cases hu : u.isLeaf = true
  · have h0 : u = .leaf := (isLeaf_eq_true_iff u).1 hu
    subst h0
    rfl
  · rw [if_neg hu]
    simpa [countVisited, List.countP_cons, hm] using ih

theorem countMoves_guard (u : Tree) (m : Step) (steps : List Step)
    (hm : m.isMove = true)
    (ih : countMoves steps + 1 = u.size + (if u.isLeaf then 1 else 0)) :
    countMoves (if u.isLeaf then [] else m :: steps) = u.size := by
  by_cases hu : u.isLeaf = true
  · have h0 : u = .leaf := (isLeaf_eq_true_iff u).1 hu
    subst h0
    rfl
  · rw [if_neg hu] at ih ⊢
    simp only [countMoves] at ih ⊢
    simp [List.countP_cons, hm]
    omega

theorem countVisited_inorder (t : Tree) :
    countVisited t.inorderTraversal = t.size := by
  induction t with
  | leaf => rfl
  | node v l r ihl ihr =>
    have hstep : (Tree.node v l r).inorderTraversal =
        (if l.isLeaf then [] else ⟨some v, .movedLeft⟩ :: l.inorderTraversal) ++
        ⟨some v, .visited⟩ ::
        (if r.isLeaf then [] else ⟨some v, .movedRight⟩ ::
          r.inorderTraversal) := rfl
    rw [hstep]
    have hA := countVisited_guard l ⟨some v, .movedLeft⟩ l.inorderTraversal rfl ihl
    have hB := countVisited_guard r ⟨some v, .movedRight⟩ r.inorderTraversal rfl ihr
    simp only [countVisited, List.countP_append, List.countP_cons] at hA hB ⊢
    simp only [hA, hB, Step.isVisitedStep, Tree.size]
    simp
    omega

theorem countVisited_preorder (t : Tree) :
    countVisited t.preorderTraversal = t.size := by
  induction t with
  | leaf => rfl
  | node v l r ihl ihr =>
    have hstep : (Tree.node v l r).preorderTraversal =
        ⟨some v, .visited⟩ ::
        ((if l.isLeaf then [] else ⟨some v, .movedLeft⟩ :: l.preorderTraversal) ++
         (if r.isLeaf then [] else ⟨some v, .movedRight⟩ ::
           r.preorderTraversal)) := rfl
    rw [hstep]
    have hA := countVisited_guard l ⟨some v, .movedLeft⟩ l.preorderTraversal rfl ihl
    have hB := countVisited_guard r ⟨some v, .movedRight⟩ r.preorderTraversal rfl ihr
    simp only [countVisited, List.countP_append, List.countP_cons] at hA hB ⊢
    simp only [hA, hB, Step.isVisitedStep, Tree.size]
    simp
    omega

theorem countVisited_postorder (t : Tree) :
    countVisited t.postorderTraversal = t.size := by
  induction t with
  | leaf => rfl
  | node v l r ihl ihr =>
    have hstep : (Tree.node v l r).postorderTraversal =
        (if l.isLeaf then [] else ⟨some v, .movedLeft⟩ :: l.postorderTraversal) ++
        (if r.isLeaf then [] else ⟨some v, .movedRight⟩ :: r.postorderTraversal) ++
        [⟨some v, .visited⟩] := rfl
    rw [hstep]
    have hA := countVisited_guard l ⟨some v, .movedLeft⟩ l.postorderTraversal rfl ihl
    have hB := countVisited_guard r ⟨some v, .movedRight⟩ r.postorderTraversal rfl ihr
    simp only [countVisited, List.countP_append, List.countP_cons] at hA hB ⊢
    simp only [hA, hB, Step.isVisitedStep, Tree.size]
    simp
    omega

theorem countMoves_inorder (t : Tree) :
    countMoves t.inorderTraversal + 1 = t.size + (if t.isLeaf then 1 else 0) := by
  induction t with
  | leaf => rfl
  | node v l r ihl ihr =>
    have hstep : (Tree.node v l r).inorderTraversal =
        (if l.isLeaf then [] else ⟨some v, .movedLeft⟩ :: l.inorderTraversal) ++
        ⟨some v, .visited⟩ ::
        (if r.isLeaf then [] else ⟨some v, .movedRight⟩ ::
          r.inorderTraversal) := rfl
    rw [hstep]
    have hA := countMoves_guard l ⟨some v, .movedLeft⟩ l.inorderTraversal rfl ihl
    have hB := countMoves_guard r ⟨some v, .movedRight⟩ r.inorderTraversal rfl ihr
    simp only [countMoves, List.countP_append, List.countP_cons] at hA hB ⊢
    simp only [hA, hB, Step.isMove, Tree.size, isLeaf_node]
    simp
    omega

theorem countMoves_preorder (t : Tree) :
    countMoves t.preorderTraversal + 1 = t.size + (if t.isLeaf then 1 else 0) := by
  induction t with
  | leaf => rfl
  | node v l r ihl ihr =>
    have hstep : (Tree.node v l r).preorderTraversal =
        ⟨some v, .visited⟩ ::
        ((if l.isLeaf then [] else ⟨some v, .movedLeft⟩ :: l.preorderTraversal) ++
         (if r.isLeaf then [] else ⟨some v, .movedRight⟩ ::
           r.preorderTraversal)) := rfl
    rw [hstep]
    have hA := countMoves_guard l ⟨some v, .movedLeft⟩ l.preorderTraversal rfl ihl
    have hB := countMoves_guard r ⟨some v, .movedRight⟩ r.preorderTraversal rfl ihr
    simp only [countMoves, List.countP_append, List.countP_cons] at hA hB ⊢
    simp only [hA, hB, Step.isMove, Tree.size, isLeaf_node]
    simp
    omega

theorem countMoves_postorder (t : Tree) :
    countMoves t.postorderTraversal + 1 = t.size + (if t.isLeaf then 1 else 0) := by
  induction t with
  | leaf => rfl
  | node v l r ihl ihr =>
    have hstep : (Tree.node v l r).postorderTraversal =
        (if l.isLeaf then [] else ⟨some v, .movedLeft⟩ :: l.postorderTraversal) ++
        (if r.isLeaf then [] else ⟨some v, .movedRight⟩ :: r.postorderTraversal) ++
        [⟨some v, .visited⟩] := rfl
    rw [hstep]
    have hA := countMoves_guard l ⟨some v, .movedLeft⟩ l.postorderTraversal rfl ihl
    have hB := countMoves_guard r ⟨some v, .movedRight⟩ r.postorderTraversal rfl ihr
    simp only [countMoves, List.countP_append, List.countP_cons] at hA hB ⊢
    simp only [hA, hB, Step.isMove, Tree.size, isLeaf_node]
    simp
    omega

/-! ## Traversal order laws (C5) -/

@[simp] theorem visitedValues_nil : visitedValues [] = [] := rfl

theorem visitedValues_guard (u : Tree) (m : Step) (steps : List Step)
    (hm : m.action ≠ .visited) (target : List Int)
    (hleaf : u.isLeaf = true → target = [])
    (ih : visitedValues steps = target) :
    visitedValues (if u.isLeaf then [] else m :: steps) = target := by
  by_cases hu : u.isLeaf = true
  · rw [if_pos hu, hleaf hu]
    rfl
  · rw [if_neg hu, ← ih]
    simp [visitedValues, List.filterMap_cons, hm]

/-- The in-order traversal visits exactly the in-order value list. -/
theorem visitedValues_inorder (t : Tree) :
    visitedValues t.inorderTraversal = t.values := by
  induction t with
  | leaf => rfl
  | node v l r ihl ihr =>
    have hstep : (Tree.node v l r).inorderTraversal =
        (if l.isLeaf then [] else ⟨some v, .movedLeft⟩ :: l.inorderTraversal) ++
        ⟨some v, .visited⟩ ::
        (if r.isLeaf then [] else ⟨some v, .movedRight⟩ ::
          r.inorderTraversal) := rfl
    have hlv : l.isLeaf = true → l.values = [] := by
      intro h; rw [(isLeaf_eq_true_iff l).1 h]; rfl
    have hrv : r.isLeaf = true → r.values = [] := by
      intro h; rw [(isLeaf_eq_true_iff r).1 h]; rfl
    have hA := visitedValues_guard l ⟨some v, .movedLeft⟩ l.inorderTraversal
      (by simp) l.values hlv ihl
    have hB := visitedValues_guard r ⟨some v, .movedRight⟩ r.inorderTraversal
      (by simp) r.values hrv ihr
    rw [hstep]
    simp only [visitedValues, List.filterMap_append, List.filterMap_cons] at hA hB ⊢
    simp [hA, hB, Tree.values]

theorem visitedValues_preorder (t : Tree) :
    visitedValues t.preorderTraversal = preorderValues t := by
  induction t with
  | leaf => rfl
  | node v l r ihl ihr =>
    have hstep : (Tree.node v l r).preorderTraversal =
        ⟨some v, .visited⟩ ::
        ((if l.isLeaf then [] else ⟨some v, .movedLeft⟩ :: l.preorderTraversal) ++
         (if r.isLeaf then [] else ⟨some v, .movedRight⟩ ::
           r.preorderTraversal)) := rfl
    have hlv : l.isLeaf = true → preorderValues l = [] := by
      intro h; rw [(isLeaf_eq_true_iff l).1 h]; rfl
    have hrv : r.isLeaf = true → preorderValues r = [] := by
      intro h; rw [(isLeaf_eq_true_iff r).1 h]; rfl
    have hA := visitedValues_guard l ⟨some v, .movedLeft⟩ l.preorderTraversal
      (by simp) (preorderValues l) hlv ihl
    have hB := visitedValues_guard r ⟨some v, .movedRight⟩ r.preorderTraversal
      (by simp) (preorderValues r) hrv ihr
    rw [hstep]
    simp only [visitedValues, List.filterMap_append, List.filterMap_cons] at hA hB ⊢
    simp [hA, hB, preorderValues]

theorem visitedValues_postorder (t : Tree) :
    visitedValues t.postorderTraversal = postorderValues t := by
  induction t with
  | leaf => rfl
  | node v l r ihl ihr =>
    have hstep : (Tree.node v l r).postorderTraversal =
        (if l.isLeaf then [] else ⟨some v, .movedLeft⟩ :: l.postorderTraversal) ++
        (if r.isLeaf then [] else ⟨some v, .movedRight⟩ :: r.postorderTraversal) ++
        [⟨some v, .visited⟩] := rfl
    have hlv : l.isLeaf = true → postorderValues l = [] := by
      intro h; rw [(isLeaf_eq_true_iff l).1 h]; rfl
    have hrv : r.isLeaf = true → postorderValues r = [] := by
      intro h; rw [(isLeaf_eq_true_iff r).1 h]; rfl
    have hA := visitedValues_guard l ⟨some v, .movedLeft⟩ l.postorderTraversal
      (by simp) (postorderValues l) hlv ihl
    have hB := visitedValues_guard r ⟨some v, .movedRight⟩ r.postorderTraversal
      (by simp) (postorderValues r) hrv ihr
    rw [hstep]
    simp only [visitedValues, List.filterMap_append, List.filterMap_cons] at hA hB ⊢
    simp [hA, hB, postorderValues]

theorem mem_preorderValues (t : Tree) (x : Int) :
    x ∈ preorderValues t ↔ x ∈ t.values := by
  induction t with
  | leaf => simp [preorderValues, Tree.values]
  | node v l r ihl ihr =>
    simp [preorderValues, Tree.values, ihl, ihr]
    tauto

theorem mem_postorderValues (t : Tree) (x : Int) :
    x ∈ postorderValues t ↔ x ∈ t.values := by
  induction t with
  | leaf => simp [postorderValues, Tree.values]
  | node v l r ihl ihr =>
    simp [postorderValues, Tree.values, ihl, ihr]
    tauto

/-- Pre-order visits a node before everything in its subtrees. -/
theorem preorder_parent_first (t : Tree) {v : Int} {l r : Tree} {c : Int}
    (hsub : Subtree (.node v l r) t) (hc : c ∈ l.values ∨ c ∈ r.values) :
    [v, c].Sublist (preorderValues t) := by
  induction t with
  | leaf => cases hsub
  | node tv tl tr ihl ihr =>
    cases hsub with
    | refl =>
      have hcm : c ∈ preorderValues l ++ preorderValues r := by
        rcases hc with h | h
        · exact List.mem_append_left _ ((mem_preorderValues l c).2 h)
        · exact List.mem_append_right _ ((mem_preorderValues r c).2 h)
      exact (List.singleton_sublist.2 hcm).cons_cons v
    | inLeft _ _ h =>
      refine (ihl h).trans ?_
      show List.Sublist (preorderValues tl)
        (tv :: (preorderValues tl ++ preorderValues tr))
      exact (List.sublist_append_left (preorderValues tl)
        (preorderValues tr)).trans (List.sublist_cons_self tv _)
    | inRight _ _ h =>
      refine (ihr h).trans ?_
      show List.Sublist (preorderValues tr)
        (tv :: (preorderValues tl ++ preorderValues tr))
      exact (List.sublist_append_right (preorderValues tl)
        (preorderValues tr)).trans (List.sublist_cons_self tv _)

/-- Post-order visits a node after everything in its subtrees. -/
theorem postorder_parent_last (t : Tree) {v : Int} {l r : Tree} {c : Int}
    (hsub : Subtree (.node v l r) t) (hc : c ∈ l.values ∨ c ∈ r.values) :
    [c, v].Sublist (postorderValues t) := by
  induction t with
  | leaf => cases hsub
  | node tv tl tr ihl ihr =>
    cases hsub with
    | refl =>
      have hcm : c ∈ postorderValues l ++ postorderValues r := by
        rcases hc with h | h
        · exact List.mem_append_left _ ((mem_postorderValues l c).2 h)
        · exact List.mem_append_right _ ((mem_postorderValues r c).2 h)
      have hstep : List.Sublist ([c] ++ [v])
          ((postorderValues l ++ postorderValues r) ++ [v]) :=
        List.Sublist.append (List.singleton_sublist.2 hcm) (List.Sublist.refl _)
      simpa [postorderValues] using hstep
    | inLeft _ _ h =>
      refine (ihl h).trans ?_
      show List.Sublist (postorderValues tl)
        (postorderValues tl ++ postorderValues tr ++ [tv])
      exact (List.sublist_append_left _ _).trans (List.sublist_append_left _ _)
    | inRight _ _ h =>
      refine (ihr h).trans ?_
      show List.Sublist (postorderValues tr)
        (postorderValues tl ++ postorderValues tr ++ [tv])
      exact ((List.sublist_append_right _ _).trans (List.sublist_append_left _ _))

/-- In a BST the in-order value list is strictly increasing. -/
theorem pairwise_lt_values (t : Tree) (h : IsBST t) :
    t.values.Pairwise (· < ·) := by
  induction t with
  | leaf => simp [Tree.values]
  | node v l r ihl ihr =>
    obtain ⟨hl, hr, bl, br⟩ := h
    rw [Tree.values, List.pairwise_append]
    refine ⟨ihl bl, ?_, ?_⟩
    · rw [List.pairwise_cons]
      exact ⟨fun b hb => hr b hb, ihr br⟩
    · intro a ha b hb
      rcases List.mem_cons.1 hb with rfl | hb
      · exact hl a ha
      · exact lt_trans (hl a ha) (hr b hb)

/-- The in-order value list of a tree built by insertion from empty is
exactly the ascending sort of the distinct inserted values. -/
theorem values_insertAll_eq_sorted_dedup (vs : List Int) :
    (insertAll Tree.leaf vs).values =
      List.insertionSort (· ≤ ·) vs.dedup := by
  have hpw := pairwise_lt_values _ (isBST_insertAll vs .leaf trivial)
  have hnodup : (insertAll Tree.leaf vs).values.Nodup :=
    hpw.imp (fun h => ne_of_lt h)
  have hperm : List.Perm (insertAll Tree.leaf vs).values vs.dedup := by
    rw [List.perm_ext_iff_of_nodup hnodup (List.nodup_dedup vs)]
    intro a
    rw [mem_values_insertAll, List.mem_dedup]
    simp [Tree.values]
  have hperm2 : List.Perm (insertAll Tree.leaf vs).values
      (List.insertionSort (· ≤ ·) vs.dedup) :=
    hperm.trans (List.perm_insertionSort (· ≤ ·) vs.dedup).symm
  exact List.eq_of_perm_of_sorted hperm2
    (hpw.imp (fun h => le_of_lt h))
    (List.sorted_insertionSort (· ≤ ·) vs.dedup)

/-- C5 — The `VISITED` values of `inorderTraversal` on a tree built by
insertion are exactly the ascending sorted order of the distinct inserted
values; in `preorderTraversal` every node's `VISITED` step precedes the
`VISITED` steps of all values in its subtrees, and in `postorderTraversal`
it follows them. -/
theorem claim_C5 (vs : List Int) :
    visitedValues (insertAll Tree.leaf vs).inorderTraversal =
      List.insertionSort (· ≤ ·) vs.dedup ∧
    (∀ (t : Tree) (v : Int) (l r : Tree) (c : Int),
      Subtree (.node v l r) t → (c ∈ l.values ∨ c ∈ r.values) →
      [v, c].Sublist (visitedValues t.preorderTraversal) ∧
      [c, v].Sublist (visitedValues t.postorderTraversal)) := by
  constructor
  · rw [visitedValues_inorder]
    exact values_insertAll_eq_sorted_dedup vs
  · intro t v l r c hsub hc
    rw [visitedValues_preorder, visitedValues_postorder]
    exact ⟨preorder_parent_first t hsub hc, postorder_parent_last t hsub hc⟩

theorem claim_C5_witness :
    [2, 1].Sublist (visitedValues
      (Tree.node 2 (.node 1 .leaf .leaf) (.node 3 .leaf .leaf)).preorderTraversal) ∧
    [1, 2].Sublist (visitedValues
      (Tree.node 2 (.node 1 .leaf .leaf) (.node 3 .leaf .leaf)).postorderTraversal) :=
  (claim_C5 []).2 (Tree.node 2 (.node 1 .leaf .leaf) (.node 3 .leaf .leaf)) 2
    (.node 1 .leaf .leaf) (.node 3 .leaf .leaf) 1 (Subtree.refl _)
    (Or.inl (by decide))

/-- C6 — For every tree with `N` nodes each traversal records exactly `N`
`VISITED` steps and exactly `N − 1` movement steps (one per edge); the empty
tree yields the empty sequence for all three. -/
theorem claim_C6 (t : Tree) :
    (countVisited t.inorderTraversal = t.size ∧
     countVisited t.preorderTraversal = t.size ∧
     countVisited t.postorderTraversal = t.size) ∧
    (countMoves t.inorderTraversal = t.size - 1 ∧
     countMoves t.preorderTraversal = t.size - 1 ∧
     countMoves t.postorderTraversal = t.size - 1) ∧
    (Tree.leaf.inorderTraversal = [] ∧ Tree.leaf.preorderTraversal = [] ∧
     Tree.leaf.postorderTraversal = []) := by
  refine ⟨⟨countVisited_inorder t, countVisited_preorder t,
    countVisited_postorder t⟩, ⟨?_, ?_, ?_⟩, rfl, rfl, rfl⟩
  · have h := countMoves_inorder t
    cases t with
    | leaf => rfl
    | node v l r => simp at h; omega
  · have h := countMoves_preorder t
    cases t with
    | leaf => rfl
    | node v l r => simp at h; omega
  · have h := countMoves_postorder t
    cases t with
    | leaf => rfl
    | node v l r => simp at h; omega

/-! ## Layout properties (C7) -/

/-- The subtree width used by the layout equals the node count. -/
theorem width_eq_size (t : Tree) : t.width = t.size := by
  induction t with
  | leaf => rfl
  | node v l r ihl ihr => simp [Tree.width, Tree.size, ihl, ihr]

/-- The position list is a permutation of its in-order rearrangement. -/
theorem assignPositions_perm (t : Tree) (d b : Nat) :
    List.Perm (t.assignPositions d b) (inorderPosPairs t d b) := by
  induction t generalizing d b with
  | leaf => exact List.Perm.refl _
  | node v l r ihl ihr =>
    rw [Tree.assignPositions, inorderPosPairs]
    exact (List.Perm.cons _ (List.Perm.append (ihl _ _) (ihr _ _))).trans
      List.perm_middle.symm

/-- In in-order arrangement the layout lists exactly the tree's in-order
values. -/
theorem inorderPosPairs_map_value (t : Tree) (d b : Nat) :
    (inorderPosPairs t d b).map Pos.value = t.values := by
  induction t generalizing d b with
  | leaf => rfl
  | node v l r ihl ihr => simp [inorderPosPairs, Tree.values, ihl, ihr]

/-- In in-order arrangement the x coordinates are exactly the consecutive
columns `b, b+1, …, b+size−1` scaled by the horizontal spacing: every node's
column is its in-order rank, all columns are distinct, and the column ranges
of the left subtree, the node, and the right subtree never overlap. -/
theorem inorderPosPairs_map_x (t : Tree) (d b : Nat) :
    (inorderPosPairs t d b).map Pos.x =
      (List.range' b t.size).map
        (fun i => PADDING + i * HORIZONTAL_SPACING) := by
  induction t generalizing d b with
  | leaf => rfl
  | node v l r ihl ihr =>
    rw [inorderPosPairs, List.map_append, List.map_cons, ihl, ihr,
      width_eq_size l]
    have hsz : (Tree.node v l r).size = 1 + r.size + l.size := by
      simp [Tree.size]
      omega
    rw [hsz, ← List.range'_append_1 b l.size (1 + r.size),
      List.map_append]
    congr 1
    have h1 : 1 + r.size = r.size + 1 := by omega
    rw [h1, List.range'_succ, List.map_cons]

/-- Every computed position's y coordinate is the padded vertical spacing of
the depth at which the value sits. -/
theorem mem_assignPositions_y (t : Tree) (d b : Nat) (p : Pos)
    (hp : p ∈ t.assignPositions d b) :
    ∃ k, p.value ∈ t.atDepth k ∧
      p.y = PADDING + (d + k) * VERTICAL_SPACING := by
  induction t generalizing d b with
  | leaf => simp [Tree.assignPositions] at hp
  | node v l r ihl ihr =>
    rw [Tree.assignPositions] at hp
    rcases List.mem_cons.1 hp with rfl | hp
    · exact ⟨0, by simp [Tree.atDepth], by simp⟩
    · rcases List.mem_append.1 hp with hp | hp
      · obtain ⟨k, hk, hy⟩ := ihl (d + 1) b hp
        refine ⟨k + 1, ?_, ?_⟩
        · rw [Tree.atDepth]
          exact List.mem_append_left _ hk
        · rw [hy]
          simp [PADDING, VERTICAL_SPACING]
          omega
      · obtain ⟨k, hk, hy⟩ := ihr (d + 1) (b + l.width + 1) hp
        refine ⟨k + 1, ?_, ?_⟩
        · rw [Tree.atDepth]
          exact List.mem_append_right _ hk
        · rw [hy]
          simp [PADDING, VERTICAL_SPACING]
          omega

/-- C7 — `computePositions` is a pure function of the tree shape: the empty
tree yields an empty position mapping and an empty edge list; the computed
positions, rearranged in-order, carry exactly the in-order values with
x columns `PADDING + rank × HORIZONTAL_SPACING` for consecutive in-order
ranks `0, 1, …, N−1` (so every node occupies a distinct column equal to its
in-order rank and the column ranges of sibling subtrees never overlap); and
every position's y coordinate is `PADDING + depth × VERTICAL_SPACING` for
the depth at which its value sits. -/
theorem claim_C7 (t : Tree) :
    computePositions Tree.leaf = [] ∧
    collectEdges Tree.leaf = [] ∧
    List.Perm (computePositions t) (inorderPosPairs t 0 0) ∧
    (inorderPosPairs t 0 0).map Pos.value = t.values ∧
    (inorderPosPairs t 0 0).map Pos.x =
      (List.range t.size).map (fun i => PADDING + i * HORIZONTAL_SPACING) ∧
    (∀ p ∈ computePositions t, ∃ k, p.value ∈ t.atDepth k ∧
      p.y = PADDING + k * VERTICAL_SPACING) := by
  refine ⟨rfl, rfl, assignPositions_perm t 0 0, inorderPosPairs_map_value t 0 0,
    ?_, ?_⟩
  · rw [List.range_eq_range']
    exact inorderPosPairs_map_x t 0 0
  · intro p hp
    obtain ⟨k, hk, hy⟩ := mem_assignPositions_y t 0 0 p hp
    exact ⟨k, hk, by simpa using hy⟩

theorem claim_C7_witness :
    ∃ k, (30 : Int) ∈ (Tree.node 50 (.node 30 .leaf .leaf) .leaf).atDepth k ∧
      (130 : Nat) = PADDING + k * VERTICAL_SPACING :=
  (claim_C7 (Tree.node 50 (.node 30 .leaf .leaf) .leaf)).2.2.2.2.2
    ⟨30, 50, 130⟩ (by decide)

end BSTViz
